import Mathlib

/-!
Verification development for the competition-discovery worker
(`src/index.ts`).  The pipeline under study is:

  extractCompetitions (marker scan over a decoded chunk)
    → extractJsonBlock (balanced-brace scan)
    → parseCompetitionJson (tolerant JSON decode)
    → candidate normalization into `Competition`
  filterNewCompetitions (dedup gate over a key-value store)
  buildTelegramMessages / buildHeader (notification batching)

Strings are modelled as `List Char` (`Chars`) on the extraction side —
one entry per UTF-16 code unit of the JavaScript string; characters
outside the basic multilingual plane (surrogate pairs) are outside the
model, and none occur in the data handled here.  The batching side uses
Lean `String`, whose `length` agrees with JavaScript `String.length` on
BMP-only strings.  JavaScript numbers are modelled exactly, as signed
decimal mantissa/exponent pairs (`DecNum`), instead of by binary
floating point; all numeric values exercised here are small integers,
where the two agree.
-/

set_option maxRecDepth 10000

abbrev Chars := List Char

/-- Left brace character, written by code point. -/
def lbraceChar : Char := Char.ofNat 123

/-- Right brace character, written by code point. -/
def rbraceChar : Char := Char.ofNat 125

/-- Backtick character, written by code point. -/
def backtickChar : Char := Char.ofNat 96

/-- Unicode replacement character U+FFFD, emitted by a non-fatal UTF-8 decoder. -/
def replChar : Char := Char.ofNat 0xFFFD

/-- An exact decimal number `m * 10 ^ e`.  Decimal literals parsed from
JSON or from numeric strings are represented this way, with the mantissa
and exponent exactly as the digits dictate (mantissa = all digits read,
exponent = written exponent minus the number of fraction digits), so the
representation of a parsed literal is deterministic.  Equality of
`DecNum` is representational. -/
structure DecNum where
  m : Int
  e : Int
deriving DecidableEq

/-- The decimal number denoting a plain natural. -/
def DecNum.ofNat (n : Nat) : DecNum := ⟨(n : Int), 0⟩

/-- Whether the denoted number is zero. -/
def DecNum.isZero (n : DecNum) : Bool := n.m == 0

/-- A decoded JSON value, as produced by `JSON.parse`. -/
inductive JsonValue where
  | null
  | bool (b : Bool)
  | num (n : DecNum)
  | str (s : Chars)
  | arr (elems : List JsonValue)
  | obj (fields : List (Chars × JsonValue))

/-- A JavaScript number: NaN, signed infinity, or an exact decimal
value.  All numeric values arising in this development are exact
decimals, where this model coincides with IEEE doubles. -/
inductive JSNum where
  | nan
  | inf (pos : Bool)
  | val (n : DecNum)
deriving DecidableEq

/-- The canonical record (interface `Competition` in the source). -/
structure Competition where
  id : String
  title : String
  description : String
  prize : String
  timeLeft : String
  source : String
  participants : JSNum
  tags : List String
deriving DecidableEq

/-! ## JSON parser (model of `JSON.parse`)

`JSON.parse` either returns a value or throws; we model it as
`Option JsonValue`.  The parser follows the JSON grammar (RFC 8259):
insignificant whitespace is space/tab/LF/CR, strings reject raw control
characters and accept the eight standard escapes plus `\uXXXX`, numbers
reject leading `+`, leading zeros and bare dots.  Recursion is fueled;
`jsonParse` passes fuel `length + 2`, which is never exhausted because
every recursive call follows consumption of at least one character. -/

def isJsonWs (c : Char) : Bool :=
  c == ' ' || c == '\t' || c == '\n' || c == '\r'

def skipWsL (s : Chars) : Chars := s.dropWhile isJsonWs

def hexVal (c : Char) : Option Nat :=
  if '0' ≤ c ∧ c ≤ '9' then some (c.toNat - 48)
  else if 'a' ≤ c ∧ c ≤ 'f' then some (c.toNat - 87)
  else if 'A' ≤ c ∧ c ≤ 'F' then some (c.toNat - 55)
  else none

/-- Parse the body of a JSON string literal (the opening quote already
consumed); returns the decoded characters and the remaining input after
the closing quote. -/
def parseJString : Chars → Option (Chars × Chars)
  | [] => none
  | c :: rest =>
    if c = '"' then some ([], rest)
    else if c = '\\' then
      match rest with
      | [] => none
      | e :: rest2 =>
        if e = '"' ∨ e = '\\' ∨ e = '/' then
          (parseJString rest2).map (fun p => (e :: p.1, p.2))
        else if e = 'b' then (parseJString rest2).map (fun p => (Char.ofNat 8 :: p.1, p.2))
        else if e = 'f' then (parseJString rest2).map (fun p => (Char.ofNat 12 :: p.1, p.2))
        else if e = 'n' then (parseJString rest2).map (fun p => ('\n' :: p.1, p.2))
        else if e = 'r' then (parseJString rest2).map (fun p => ('\r' :: p.1, p.2))
        else if e = 't' then (parseJString rest2).map (fun p => ('\t' :: p.1, p.2))
        else if e = 'u' then
          match rest2 with
          | h1 :: h2 :: h3 :: h4 :: rest6 =>
            match hexVal h1, hexVal h2, hexVal h3, hexVal h4 with
            | some a, some b, some c2, some d =>
              (parseJString rest6).map
                (fun p => (Char.ofNat (a * 4096 + b * 256 + c2 * 16 + d) :: p.1, p.2))
            | _, _, _, _ => none
          | _ => none
        else none
    else if c.toNat < 0x20 then none
    else (parseJString rest).map (fun p => (c :: p.1, p.2))

def digitsToNat (ds : Chars) : Nat :=
  ds.foldl (fun acc c => acc * 10 + (c.toNat - 48)) 0

/-- Parse an optional JSON exponent part; `none` means a malformed
exponent (an `e` not followed by digits), `some (0, s)` means no
exponent present. -/
def parseOptExp (s : Chars) : Option (Int × Chars) :=
  match s with
  | c :: rest =>
    if c = 'e' ∨ c = 'E' then
      let signAndRest : Int × Chars :=
        match rest with
        | d :: rr => if d = '+' then (1, rr) else if d = '-' then (-1, rr) else (1, rest)
        | [] => (1, rest)
      let ds := (signAndRest.2).takeWhile Char.isDigit
      let r2 := (signAndRest.2).dropWhile Char.isDigit
      if ds = [] then none
      else some (signAndRest.1 * (digitsToNat ds : Int), r2)
    else some (0, s)
  | [] => some (0, s)

/-- Parse the fraction-and-exponent tail of a JSON number whose integer
part `ip` has been consumed; the denoted value is
`±(ip.fracDigits) * 10 ^ exponent`. -/
def parseFracExp (neg : Bool) (ip : Nat) (s : Chars) : Option (DecNum × Chars) :=
  let fracStep : Option (Chars × Chars) :=
    match s with
    | c :: rest =>
      if c = '.' then
        let ds := rest.takeWhile Char.isDigit
        let r := rest.dropWhile Char.isDigit
        if ds = [] then none else some (ds, r)
      else some ([], s)
    | [] => some ([], s)
  match fracStep with
  | none => none
  | some (fds, s2) =>
    match parseOptExp s2 with
    | none => none
    | some (ex, s3) =>
      let m0 : Nat := ip * 10 ^ fds.length + digitsToNat fds
      let m : Int := if neg then -(m0 : Int) else (m0 : Int)
      some (⟨m, ex - (fds.length : Int)⟩, s3)

/-- Parse a JSON number from the head of the input. -/
def parseJNumber (s : Chars) : Option (DecNum × Chars) :=
  let signAndRest : Bool × Chars :=
    match s with
    | c :: rest => if c = '-' then (true, rest) else (false, s)
    | [] => (false, s)
  match signAndRest.2 with
  | [] => none
  | c :: rest =>
    if c = '0' then parseFracExp signAndRest.1 0 rest
    else if c.isDigit then
      let ds := (signAndRest.2).takeWhile Char.isDigit
      let r1 := (signAndRest.2).dropWhile Char.isDigit
      parseFracExp signAndRest.1 (digitsToNat ds) r1
    else none

/-- Parser mode: a single value, an array-element list, or an
object-member list. -/
inductive PMode where
  | value
  | elems
  | members

/-- Parser intermediate result, matching the mode. -/
inductive PRes where
  | val (v : JsonValue)
  | elemList (vs : List JsonValue)
  | memberList (fs : List (Chars × JsonValue))

/-- One fueled parsing step.  In `elems`/`members` mode the input starts
at the first element/member (whitespace already skipped, the case of an
immediately closing bracket having been handled by the caller). -/
def parseStep : Nat → PMode → Chars → Option (PRes × Chars)
  | 0, _, _ => none
  | fuel + 1, PMode.value, s =>
    match s with
    | [] => none
    | c :: rest =>
      if c = lbraceChar then
        match skipWsL rest with
        | [] => none
        | d :: rest1 =>
          if d = rbraceChar then some (PRes.val (JsonValue.obj []), rest1)
          else
            match parseStep fuel PMode.members (d :: rest1) with
            | some (PRes.memberList fs, r) => some (PRes.val (JsonValue.obj fs), r)
            | _ => none
      else if c = '[' then
        match skipWsL rest with
        | [] => none
        | d :: rest1 =>
          if d = ']' then some (PRes.val (JsonValue.arr []), rest1)
          else
            match parseStep fuel PMode.elems (d :: rest1) with
            | some (PRes.elemList vs, r) => some (PRes.val (JsonValue.arr vs), r)
            | _ => none
      else if c = '"' then
        (parseJString rest).map (fun p => (PRes.val (JsonValue.str p.1), p.2))
      else if c = 't' then
        match rest with
        | 'r' :: 'u' :: 'e' :: r => some (PRes.val (JsonValue.bool true), r)
        | _ => none
      else if c = 'f' then
        match rest with
        | 'a' :: 'l' :: 's' :: 'e' :: r => some (PRes.val (JsonValue.bool false), r)
        | _ => none
      else if c = 'n' then
        match rest with
        | 'u' :: 'l' :: 'l' :: r => some (PRes.val JsonValue.null, r)
        | _ => none
      else
        (parseJNumber s).map (fun p => (PRes.val (JsonValue.num p.1), p.2))
  | fuel + 1, PMode.elems, s =>
    match parseStep fuel PMode.value s with
    | some (PRes.val v, r) =>
      match skipWsL r with
      | ',' :: r2 =>
        match parseStep fuel PMode.elems (skipWsL r2) with
        | some (PRes.elemList vs, r3) => some (PRes.elemList (v :: vs), r3)
        | _ => none
      | ']' :: r2 => some (PRes.elemList [v], r2)
      | _ => none
    | _ => none
  | fuel + 1, PMode.members, s =>
    match s with
    | '"' :: rest =>
      match parseJString rest with
      | some (key, r) =>
        match skipWsL r with
        | ':' :: r2 =>
          match parseStep fuel PMode.value (skipWsL r2) with
          | some (PRes.val v, r3) =>
            match skipWsL r3 with
            | ',' :: r5 =>
              match parseStep fuel PMode.members (skipWsL r5) with
              | some (PRes.memberList fs, r6) => some (PRes.memberList ((key, v) :: fs), r6)
              | _ => none
            | d :: r5 =>
              if d = rbraceChar then some (PRes.memberList [(key, v)], r5) else none
            | [] => none
          | _ => none
        | _ => none
      | none => none
    | _ => none

/-- Model of `JSON.parse`: parse one value surrounded by optional
whitespace; anything else (including trailing garbage) throws, i.e.
yields `none`. -/
def jsonParse (s : Chars) : Option JsonValue :=
  match parseStep (s.length + 2) PMode.value (skipWsL s) with
  | some (PRes.val v, r) => if skipWsL r = [] then some v else none
  | _ => none

/-! ## JavaScript value semantics

Helpers modelling the JavaScript operations applied to decoded JSON
values inside `extractCompetitions`: property access, truthiness,
`String(...)` and `Number(...)` conversion, `?? ` defaulting. -/

/-- Property access `v[k]` on a decoded value: `none` models
`undefined` (absent field, or access on a non-object).  For duplicate
keys `JSON.parse` keeps the last occurrence. -/
def getField (v : JsonValue) (k : Chars) : Option JsonValue :=
  match v with
  | JsonValue.obj fs => fs.foldl (fun acc p => if p.1 = k then some p.2 else acc) none
  | _ => none

/-- JavaScript truthiness of a decoded JSON value (no NaN and no -0 can
occur in a parsed value, so a number is falsy exactly when its mantissa
is zero). -/
def truthy : JsonValue → Bool
  | JsonValue.null => false
  | JsonValue.bool b => b
  | JsonValue.num n => !n.isZero
  | JsonValue.str s => !s.isEmpty
  | JsonValue.arr _ => true
  | JsonValue.obj _ => true

/-- Truthiness of a possibly-`undefined` value. -/
def truthyOpt : Option JsonValue → Bool
  | none => false
  | some v => truthy v

/-- Decimal digit characters of a natural number. -/
def natToChars (n : Nat) : Chars := (Nat.repr n).data

/-- Decimal digit characters of an integer. -/
def intToChars (i : Int) : Chars :=
  if i < 0 then '-' :: natToChars i.natAbs else natToChars i.natAbs

/-- Render a `DecNum` the way JavaScript stringifies the corresponding
number: plain decimal digits, with a decimal point when the exponent is
negative.  Scientific notation (used by JavaScript only beyond 1e21 or
below 1e-6) and the rendering artifacts of binary floating point are
outside the model; no such value occurs in this development. -/
def decNumToChars (n : DecNum) : Chars :=
  if 0 ≤ n.e then intToChars (n.m * (10 ^ n.e.toNat : Nat))
  else
    let k := (-n.e).toNat
    let mag := n.m.natAbs
    let ip := mag / 10 ^ k
    let fp := mag % 10 ^ k
    let fracDigits := natToChars (10 ^ k + fp)
    let sign : Chars := if n.m < 0 then ['-'] else []
    sign ++ natToChars ip ++ '.' :: fracDigits.drop 1

/-- Fueled model of JavaScript `String(v)` for decoded JSON values.
Arrays stringify as the comma-joined conversion of their elements with
`null` rendered empty; plain objects as `"[object Object]"`.  The fuel
bounds nesting depth; 64 exceeds any value in this development. -/
def jsToStringF : Nat → JsonValue → Chars
  | 0, _ => []
  | _ + 1, JsonValue.null => "null".data
  | _ + 1, JsonValue.bool true => "true".data
  | _ + 1, JsonValue.bool false => "false".data
  | _ + 1, JsonValue.num n => decNumToChars n
  | _ + 1, JsonValue.str s => s
  | _ + 1, JsonValue.obj _ => "[object Object]".data
  | fuel + 1, JsonValue.arr xs =>
    let rendered := xs.map (fun x =>
      match x with
      | JsonValue.null => []
      | y => jsToStringF fuel y)
    (rendered.intersperse [',']).flatten

/-- JavaScript `String(v)` on a decoded JSON value. -/
def jsToString (v : JsonValue) : Chars := jsToStringF 64 v

/-- JavaScript whitespace (the `\s` class and `String.prototype.trim`
set): ASCII whitespace, NBSP, the Unicode space separators, line and
paragraph separators, and the BOM. -/
def isJsWs (c : Char) : Bool :=
  c == ' ' || c == '\t' || c == '\n' || c == '\r' ||
  c.toNat == 0x0B || c.toNat == 0x0C || c.toNat == 0xA0 || c.toNat == 0x1680 ||
  (0x2000 ≤ c.toNat && c.toNat ≤ 0x200A) || c.toNat == 0x2028 || c.toNat == 0x2029 ||
  c.toNat == 0x202F || c.toNat == 0x205F || c.toNat == 0x3000 || c.toNat == 0xFEFF

/-- JavaScript `String.prototype.trim`. -/
def jsTrim (s : Chars) : Chars :=
  ((s.dropWhile isJsWs).reverse.dropWhile isJsWs).reverse

def hexDigitsToNat (ds : Chars) : Nat :=
  ds.foldl (fun acc c => acc * 16 + ((hexVal c).getD 0)) 0

/-- Decimal part of `ToNumber` on a trimmed, sign-stripped string:
`digits`, `digits.`, `digits.digits` or `.digits`, with an optional
exponent, consuming the whole string. -/
def parseStrDecimal (u : Chars) : Option DecNum :=
  let ids := u.takeWhile Char.isDigit
  let r1 := u.dropWhile Char.isDigit
  let fracStep : Chars × Chars :=
    match r1 with
    | c :: rest => if c = '.' then (rest.takeWhile Char.isDigit, rest.dropWhile Char.isDigit)
                   else ([], r1)
    | [] => ([], r1)
  let fds := fracStep.1
  let r2 := fracStep.2
  if ids = [] ∧ fds = [] then none
  else
    match parseOptExp r2 with
    | none => none
    | some (ex, r3) =>
      if r3 = [] then
        some ⟨(digitsToNat ids * 10 ^ fds.length + digitsToNat fds : Nat), ex - (fds.length : Int)⟩
      else none

/-- Model of JavaScript `ToNumber` on a string: trim, then the empty
string is 0; `Infinity` with optional sign; `0x`/`0o`/`0b` radix
literals (unsigned only); otherwise an optionally signed decimal
literal; anything else is NaN. -/
def strToNumber (s : Chars) : JSNum :=
  let t := jsTrim s
  match t with
  | [] => JSNum.val ⟨0, 0⟩
  | c0 :: rest0 =>
    let radixStep : Option JSNum :=
      match t with
      | '0' :: x :: ds =>
        if x = 'x' ∨ x = 'X' then
          if ds ≠ [] ∧ ds.all (fun c => (hexVal c).isSome) then
            some (JSNum.val ⟨(hexDigitsToNat ds : Int), 0⟩)
          else some JSNum.nan
        else if x = 'o' ∨ x = 'O' then
          if ds ≠ [] ∧ ds.all (fun c => '0' ≤ c ∧ c ≤ '7') then
            some (JSNum.val ⟨(ds.foldl (fun acc c => acc * 8 + (c.toNat - 48)) 0 : Nat), 0⟩)
          else some JSNum.nan
        else if x = 'b' ∨ x = 'B' then
          if ds ≠ [] ∧ ds.all (fun c => c = '0' ∨ c = '1') then
            some (JSNum.val ⟨(ds.foldl (fun acc c => acc * 2 + (c.toNat - 48)) 0 : Nat), 0⟩)
          else some JSNum.nan
        else none
      | _ => none
    match radixStep with
    | some r => r
    | none =>
      let signedBody : Bool × Chars :=
        if c0 = '+' then (false, rest0)
        else if c0 = '-' then (true, rest0)
        else (false, t)
      let neg := signedBody.1
      let body := signedBody.2
      if body = "Infinity".data then JSNum.inf (!neg)
      else
        match parseStrDecimal body with
        | some n => JSNum.val (if neg then ⟨-n.m, n.e⟩ else n)
        | none => JSNum.nan

/-- Model of JavaScript `Number(v)` on a decoded JSON value.  Arrays and
objects convert via their default string form. -/
def jsToNumber : JsonValue → JSNum
  | JsonValue.null => JSNum.val ⟨0, 0⟩
  | JsonValue.bool b => JSNum.val ⟨if b then 1 else 0, 0⟩
  | JsonValue.num n => JSNum.val n
  | JsonValue.str s => strToNumber s
  | JsonValue.arr xs => strToNumber (jsToString (JsonValue.arr xs))
  | JsonValue.obj fs => strToNumber (jsToString (JsonValue.obj fs))

/-! ## Tolerant JSON decoder (`parseCompetitionJson`, lines 225–263)

`sanitizeJsonString` replaces raw control characters by their standard
escapes (dropping those without one), the `\"` unescape restores literal
JSON, and a failed parse falls back to reinterpreting the string's code
units as bytes decoded as UTF-8.  Exceptions escaping `JSON.parse` are
modelled by `none`. -/

/-- Escape or drop one control character, as in the `switch` of
`sanitizeJsonString`. -/
def escapeCtrlChar (c : Char) : Chars :=
  if c = '\n' then ['\\', 'n']
  else if c = '\r' then ['\\', 'r']
  else if c = '\t' then ['\\', 't']
  else if c = Char.ofNat 8 then ['\\', 'b']
  else if c = Char.ofNat 12 then ['\\', 'f']
  else []

/-- Model of `sanitizeJsonString` (lines 243–263): rewrite every
character in `0x00`–`0x1F` via `escapeCtrlChar`. -/
def sanitizeJsonString (s : Chars) : Chars :=
  (s.map (fun c => if c.toNat < 0x20 then escapeCtrlChar c else [c])).flatten

/-- Model of `.replace(/\\"/g, '"')`: left-to-right, non-overlapping. -/
def replaceEscapedQuotes : Chars → Chars
  | '\\' :: '"' :: rest => '"' :: replaceEscapedQuotes rest
  | c :: rest => c :: replaceEscapedQuotes rest
  | [] => []

/-- Model of storing `charCodeAt` into a `Uint8Array`: the code unit
truncated to 8 bits. -/
def charToByte (c : Char) : Nat := c.toNat % 256

/-- Whether a byte is a UTF-8 continuation byte. -/
def utf8Cont (x : Nat) : Bool := 0x80 ≤ x && x < 0xC0

/-- One fueled step list of the WHATWG non-fatal UTF-8 decoder
(`TextDecoder("utf-8", fatal := false)` without the named argument):
malformed sequences produce U+FFFD per maximal subpart and decoding
resumes at the offending byte.  Each step consumes at least one byte, so
fuel `length + 1` is never exhausted. -/
def utf8DecodeF : Nat → List Nat → Chars
  | 0, _ => []
  | _ + 1, [] => []
  | fuel + 1, b :: rest =>
    if b < 0x80 then Char.ofNat b :: utf8DecodeF fuel rest
    else if b < 0xC2 ∨ 0xF4 < b then replChar :: utf8DecodeF fuel rest
    else
      match rest with
      | [] => [replChar]
      | b2 :: rest2 =>
        if ¬((if b = 0xE0 then 0xA0 else if b = 0xF0 then 0x90 else 0x80) ≤ b2 ∧
             b2 < (if b = 0xED then 0xA0 else if b = 0xF4 then 0x90 else 0xC0)) then
          replChar :: utf8DecodeF fuel rest
        else if b < 0xE0 then
          Char.ofNat ((b - 0xC0) * 0x40 + (b2 - 0x80)) :: utf8DecodeF fuel rest2
        else
          match rest2 with
          | [] => [replChar]
          | b3 :: rest3 =>
            if ¬(utf8Cont b3 = true) then replChar :: utf8DecodeF fuel rest2
            else if b < 0xF0 then
              Char.ofNat ((b - 0xE0) * 0x1000 + (b2 - 0x80) * 0x40 + (b3 - 0x80)) ::
                utf8DecodeF fuel rest3
            else
              match rest3 with
              | [] => [replChar]
              | b4 :: rest4 =>
                if ¬(utf8Cont b4 = true) then replChar :: utf8DecodeF fuel rest3
                else
                  Char.ofNat ((b - 0xF0) * 0x40000 + (b2 - 0x80) * 0x1000 +
                    (b3 - 0x80) * 0x40 + (b4 - 0x80)) :: utf8DecodeF fuel rest4

/-- WHATWG non-fatal UTF-8 decode of a byte list. -/
def utf8Decode (bs : List Nat) : Chars := utf8DecodeF (bs.length + 1) bs

/-- Model of `parseCompetitionJson` (lines 225–241): sanitize, unescape
quotes, parse; on failure, reinterpret the *normalized* string's code
units as bytes, UTF-8-decode them non-fatally, and parse the result
directly (without a second quote-unescape). -/
def parseCompetitionJson (raw : Chars) : Option JsonValue :=
  let sanitized := sanitizeJsonString raw
  let normalized := replaceEscapedQuotes sanitized
  match jsonParse normalized with
  | some v => some v
  | none => jsonParse (utf8Decode (normalized.map charToByte))

/-- The decoder exactly as §4.3 of the spec words the fallback: on
failure, reinterpret the *sanitized* string as bytes, re-decode as
UTF-8, *then* apply the quote-unescape step and parse again.  Written
from the spec's words, for comparison with `parseCompetitionJson`. -/
def parseCompetitionJsonSpec (raw : Chars) : Option JsonValue :=
  let sanitized := sanitizeJsonString raw
  match jsonParse (replaceEscapedQuotes sanitized) with
  | some v => some v
  | none => jsonParse (replaceEscapedQuotes (utf8Decode (sanitized.map charToByte)))

/-- The decoder as the amended claim words it: the fallback reinterprets
the already-unescaped (normalized) string as bytes, re-decodes it as
UTF-8 non-fatally, and retries the parse without reapplying the
quote-unescape step.  Written from the amended words, for comparison
with `parseCompetitionJson`. -/
def parseCompetitionJsonAmended (raw : Chars) : Option JsonValue :=
  let normalized := replaceEscapedQuotes (sanitizeJsonString raw)
  match jsonParse normalized with
  | some v => some v
  | none => jsonParse (utf8Decode (normalized.map charToByte))

/-! ## Candidate normalization (lines 159–184)

The body of the `try` block of the scan loop, from a decoded value to an
optional `Competition`.  `none` covers the three ways a candidate
produces no record: a falsy `competition`/`id`/`title` (the explicit
`continue`), and the `TypeError` thrown by `normalizeSpaces` when a
present `description` is neither a string nor nullish (caught by the
surrounding `catch`); both continue the scan at the same cursor. -/

/-- Model of `.replace(/\s+/g, " ")`: collapse every whitespace run to a
single space. -/
def collapseWsGo (prevWs : Bool) : Chars → Chars
  | [] => []
  | c :: rest =>
    if isJsWs c then
      if prevWs then collapseWsGo true rest else ' ' :: collapseWsGo true rest
    else c :: collapseWsGo false rest

/-- Model of `normalizeSpaces` (lines 471–473). -/
def normalizeSpaces (s : Chars) : Chars := jsTrim (collapseWsGo false s)

/-- The `comp.description ?? ""` argument of `normalizeSpaces`; a
non-string, non-nullish value makes `.replace` throw (`none`). -/
def descriptionField (comp : JsonValue) : Option Chars :=
  match getField comp "description".data with
  | none => some []
  | some JsonValue.null => some []
  | some (JsonValue.str s) => some s
  | some _ => none

/-- Model of `String(comp.k ?? "")` for the plain string fields. -/
def strFieldOrEmpty (comp : JsonValue) (k : Chars) : Chars :=
  match getField comp k with
  | none => []
  | some JsonValue.null => []
  | some v => jsToString v

/-- Model of `Number(comp.participants ?? 0)`. -/
def participantsField (comp : JsonValue) : JSNum :=
  match getField comp "participants".data with
  | none => JSNum.val ⟨0, 0⟩
  | some JsonValue.null => JSNum.val ⟨0, 0⟩
  | some v => jsToNumber v

/-- Model of `Array.isArray(comp.tags) ? comp.tags.map(String) : []`. -/
def tagsField (comp : JsonValue) : List String :=
  match getField comp "tags".data with
  | some (JsonValue.arr xs) => xs.map (fun x => String.mk (jsToString x))
  | _ => []

/-- Normalization of one decoded candidate (lines 161–179). -/
def normalizeCandidate (json : JsonValue) : Option Competition :=
  match getField json "competition".data with
  | none => none
  | some comp =>
    if truthy comp then
      match getField comp "id".data with
      | none => none
      | some idv =>
        if truthy idv then
          match getField comp "title".data with
          | none => none
          | some titlev =>
            if truthy titlev then
              match descriptionField comp with
              | none => none
              | some descRaw =>
                some
                  { id := String.mk (jsToString idv)
                    title := String.mk (jsToString titlev)
                    description := String.mk (normalizeSpaces descRaw)
                    prize := String.mk (strFieldOrEmpty comp "prize".data)
                    timeLeft := String.mk (strFieldOrEmpty comp "timeLeft".data)
                    source := String.mk (strFieldOrEmpty comp "source".data)
                    participants := participantsField comp
                    tags := tagsField comp }
            else none
        else none
    else none

/-! ## Balanced block extraction and the marker scan (lines 132–193, 265–290) -/

/-- Model of `String.prototype.indexOf(pat, i)` restricted to the uses
here (`i ≤ length`): the least index `j ≥ i` where `pat` occurs, `none`
when there is none. -/
def indexOfFromAux (pat : Chars) : Nat → Chars → Option Nat
  | i, l =>
    if pat.isPrefixOf l then some i
    else
      match l with
      | [] => none
      | _ :: rest => indexOfFromAux pat (i + 1) rest

/-- Occurrence search from a starting index. -/
def indexOfFrom (s pat : Chars) (start : Nat) : Option Nat :=
  indexOfFromAux pat start (s.drop start)

/-- The depth/in-string scan of `extractJsonBlock` (lines 269–287),
returning how many characters the block spans.  `prev` is the character
before the current one (`undefined`, i.e. `none`, at index 0): a quote
toggles the string flag unless `prev` is a backslash, and brace counting
uses the updated flag. -/
def extractJsonBlockGo (prev : Option Char) (depth : Int) (inString : Bool)
    (consumed : Nat) : Chars → Option Nat
  | [] => none
  | c :: rest =>
    let inString2 := if c = '"' ∧ prev ≠ some '\\' then !inString else inString
    if ¬inString2 ∧ c = lbraceChar then
      extractJsonBlockGo (some c) (depth + 1) inString2 (consumed + 1) rest
    else if ¬inString2 ∧ c = rbraceChar then
      if depth - 1 = 0 then some (consumed + 1)
      else extractJsonBlockGo (some c) (depth - 1) inString2 (consumed + 1) rest
    else extractJsonBlockGo (some c) depth inString2 (consumed + 1) rest

/-- Model of `extractJsonBlock` (lines 265–290): the balanced block of
`source` starting at `startIndex`, or `none` when the depth never
returns to zero before the end. -/
def extractJsonBlock (source : Chars) (startIndex : Nat) : Option Chars :=
  let tail := source.drop startIndex
  let prev0 : Option Char := if startIndex = 0 then none else source.get? (startIndex - 1)
  (extractJsonBlockGo prev0 0 false 0 tail).map (fun n => tail.take n)

/-- The record marker `\"card-view-` (with the escaped quote, since the
chunk still carries one level of string escaping). -/
def markerChars : Chars := "\\\"card-view-".data

/-- The single-character pattern used by `chunk.indexOf("{", ...)`. -/
def lbraceStr : Chars := [lbraceChar]

/-- The marker-scanning loop of `extractCompetitions` (lines 138–185),
fueled.  On a failed block extraction the cursor moves to
`objectStart + 1`; otherwise (parse failure, invalid candidate, or
success) it moves to `objectStart + raw.length`.  Because each iteration
moves the cursor strictly forward and the cursor is bounded by the chunk
length, fuel `chunk.length + 1` is never exhausted. -/
def extractLoop (chunk : Chars) : Nat → Nat → List Competition → List Competition
  | 0, _, acc => acc
  | fuel + 1, searchIndex, acc =>
    match indexOfFrom chunk markerChars searchIndex with
    | none => acc
    | some markerIndex =>
      match indexOfFrom chunk lbraceStr markerIndex with
      | none => acc
      | some objectStart =>
        match extractJsonBlock chunk objectStart with
        | none => extractLoop chunk fuel (objectStart + 1) acc
        | some raw =>
          match parseCompetitionJson raw with
          | none => extractLoop chunk fuel (objectStart + raw.length) acc
          | some json =>
            match normalizeCandidate json with
            | none => extractLoop chunk fuel (objectStart + raw.length) acc
            | some comp => extractLoop chunk fuel (objectStart + raw.length) (acc ++ [comp])

/-- Record extraction from a decoded chunk: the scan loop started at
cursor 0 with an empty accumulator. -/
def extractFromChunk (chunk : Chars) : List Competition :=
  extractLoop chunk (chunk.length + 1) 0 []

/-! ## Deduplication gate (`filterNewCompetitions`, lines 292–311)

The key-value binding is modelled as `Option (String → Option String)`:
`none` is a missing binding, and a lookup returning `none` models a
`null` store read.  The concurrent `Promise.all` lookups resolve to the
per-index results in order, which the model produces directly. -/

/-- The `forEach`-with-index filter over the lookup results (lines
303–308): keep the records whose lookup came back `null`. -/
def freshOf : List Competition → List (Option String) → List Competition
  | c :: cs, v :: vs => if v = none then c :: freshOf cs vs else freshOf cs vs
  | _, _ => []

/-- Model of `filterNewCompetitions`. -/
def filterNewCompetitions (kv : Option (String → Option String))
    (competitions : List Competition) : List Competition :=
  match kv with
  | none => competitions
  | some store =>
    let existing := competitions.map (fun comp => store ("seen:" ++ comp.id))
    freshOf competitions existing

/-! ## Notification batching (lines 328, 355–413, 441–473) -/

def TELEGRAM_MAX_LENGTH : Nat := 4096

/-- Model of `buildHeader` (lines 408–413): `none` is the whole-total
call `buildHeader(total)`, `some (s, e)` the three-argument range form
(whose `\\-` is the markdown-escaped dash). -/
def buildHeader (total : Nat) : Option (Nat × Nat) → String
  | some (s, e) =>
    "发现 " ++ Nat.repr total ++ " 个新竞赛（" ++ Nat.repr s ++ "\\-" ++ Nat.repr e ++
      "/" ++ Nat.repr total ++ "）：\n\n"
  | none => "发现 " ++ Nat.repr total ++ " 个新竞赛：\n\n"

/-- The characters escaped by `escapeMarkdown` (line 461). -/
def isMdReserved (c : Char) : Bool :=
  c == '_' || c == '*' || c == '[' || c == ']' || c == '(' || c == ')' || c == '~' ||
  c == backtickChar || c == '>' || c == '#' || c == '+' || c == '-' || c == '=' ||
  c == '|' || c == lbraceChar || c == rbraceChar || c == '.' || c == '!' || c == '\\'

/-- Model of `escapeMarkdown` (lines 460–462). -/
def escapeMarkdown (s : String) : String :=
  String.mk ((s.data.map (fun c => if isMdReserved c then ['\\', c] else [c])).flatten)

/-- Model of `trimDescription` (lines 464–469). -/
def trimDescription (description : String) : String :=
  if description.length ≤ 160 then description
  else String.mk (description.data.take 157) ++ "..."

/-- JavaScript `a || b` on strings: the default wins exactly when `a` is
empty. -/
def strOrDefault (a b : String) : String := if a = "" then b else a

/-- Model of `Array.prototype.join(sep)`. -/
def joinSep (sep : String) : List String → String
  | [] => ""
  | [x] => x
  | x :: xs => x ++ sep ++ joinSep sep xs

/-- Model of `formatCompetition` (lines 441–458). -/
def formatCompetition (comp : Competition) (baseUrl : String) : String :=
  let link := escapeMarkdown (baseUrl ++ comp.id)
  let title := escapeMarkdown comp.title
  let prize := escapeMarkdown (strOrDefault comp.prize "未知")
  let timeLeft := escapeMarkdown (strOrDefault comp.timeLeft "未知")
  let description :=
    if comp.description ≠ "" then escapeMarkdown (trimDescription comp.description) else "\\-"
  let tags :=
    if comp.tags ≠ [] then
      joinSep " " (comp.tags.map (fun tag =>
        String.mk [backtickChar] ++ escapeMarkdown tag ++ String.mk [backtickChar]))
    else "\\-"
  joinSep "\n"
    ["• [" ++ title ++ "](" ++ link ++ ")",
     "  来源: " ++ escapeMarkdown (strOrDefault comp.source "未知"),
     "  奖金: " ++ prize,
     "  截止: " ++ timeLeft,
     "  标签: " ++ tags,
     "  简介: " ++ description]

/-- The hypothetical total length computed before adding the next
rendered block (lines 365–375): the range header for the would-be batch
`batchStart..i+1`, the lengths of the existing blocks, one separator per
existing block, and the new block. -/
def wouldBeLen (totalCount i : Nat) (currentBatch : List String) (formatted : String) : Nat :=
  (buildHeader totalCount (some (i - currentBatch.length + 1, i + 1))).length +
  (currentBatch.map String.length).foldl (· + ·) 0 +
  (if currentBatch.length > 0 then ("\n\n" : String).length * currentBatch.length else 0) +
  formatted.length

/-- The loop of `buildTelegramMessages` (lines 362–403), recursing over
the remaining records; `i` is the 0-based index of the head of `rest`,
`currentBatch`/`currentLength`/`messages` the mutable state.  After the
loop the final non-empty batch is flushed with the whole-total header
when no message was emitted before, the range header otherwise. -/
def buildGo (totalCount : Nat) (baseUrl : String) :
    List Competition → Nat → List String → Nat → List String → List String
  | [], _, currentBatch, _, messages =>
    if currentBatch.length > 0 then
      let batchStart := totalCount - currentBatch.length + 1
      let header :=
        if messages.length = 0 then buildHeader totalCount none
        else buildHeader totalCount (some (batchStart, totalCount))
      messages ++ [header ++ joinSep "\n\n" currentBatch]
    else messages
  | c :: rest, i, currentBatch, _, messages =>
    let formatted := formatCompetition c baseUrl
    let batchStart := i - currentBatch.length + 1
    if wouldBeLen totalCount i currentBatch formatted > TELEGRAM_MAX_LENGTH ∧
        currentBatch.length > 0 then
      let batchEnd := i
      let header :=
        if totalCount = currentBatch.length then buildHeader totalCount none
        else buildHeader totalCount (some (batchStart, batchEnd))
      buildGo totalCount baseUrl rest (i + 1) [formatted] formatted.length
        (messages ++ [header ++ joinSep "\n\n" currentBatch])
    else
      buildGo totalCount baseUrl rest (i + 1) (currentBatch ++ [formatted])
        (wouldBeLen totalCount i currentBatch formatted) messages

/-- Model of `buildTelegramMessages` (lines 355–406). -/
def buildTelegramMessages (competitions : List Competition) (baseUrl : String) : List String :=
  buildGo competitions.length baseUrl competitions 0 [] 0 []

/-! ## Statement-side definitions

`rangeHeaderize`/`specMessages` express the batching contract of §4.6
for comparison with `buildTelegramMessages`: a partition of the rendered
blocks into batches, each message being the corresponding header plus
the blank-line join of its batch, range headers carrying the 1-based
positions of the batch's first and last record within the full list. -/

/-- Render batches with range headers: the batch starting at 1-based
record position `p` gets header `（p\-q/n）` where `q` is the position
of its last record, and the next batch starts at `p + length`. -/
def rangeHeaderize (n : Nat) : Nat → List (List String) → List String
  | _, [] => []
  | p, b :: bs =>
    (buildHeader n (some (p, p + b.length - 1)) ++ joinSep "\n\n" b) ::
      rangeHeaderize n (p + b.length) bs

/-- Expected message list for a batch split of `n` records: a sole
batch carries the whole-total header, otherwise every batch carries its
range header. -/
def specMessages (n : Nat) (batches : List (List String)) : List String :=
  match batches with
  | [b] => [buildHeader n none ++ joinSep "\n\n" b]
  | bs => rangeHeaderize n 1 bs

/-! ## Concrete inputs used by witnesses and counterexamples -/

/-- The record decoded from `{"competition":{"id":"a","title":"T"}}`. -/
def compT : Competition :=
  { id := "a", title := "T", description := "", prize := "", timeLeft := "", source := "",
    participants := JSNum.val ⟨0, 0⟩, tags := [] }

/-- A record whose sole rendered block exceeds the message budget. -/
def oversizedComp : Competition :=
  { id := "a", title := String.mk (List.replicate 4200 'a'), description := "", prize := "",
    timeLeft := "", source := "", participants := JSNum.val ⟨0, 0⟩, tags := [] }

/-- A chunk with one valid candidate and one invalid candidate (empty
`title`), both behind their own marker occurrence. -/
def chunkValidInvalid : Chars :=
  ("x\\\"card-view-1\\\":\x7b\\\"competition\\\":\x7b\\\"id\\\":\\\"a\\\",\\\"title\\\":\\\"T\\\"\x7d\x7d" ++
   "\\\"card-view-2\\\":\x7b\\\"competition\\\":\x7b\\\"id\\\":\\\"b\\\",\\\"title\\\":\\\"\\\"\x7d\x7d").data

/-- A chunk whose first marker occurrence opens a brace that never
closes, followed by a second occurrence with a well-formed block. -/
def chunkOneBad : Chars :=
  ("\\\"card-view-x\\\"\x7bjunk" ++
   "\\\"card-view-y\\\"\x7b\\\"competition\\\":\x7b\\\"id\\\":\\\"a\\\",\\\"title\\\":\\\"T\\\"\x7d\x7d").data

/-- A chunk that is just the marker followed by an unclosed brace. -/
def chunkMarkerOnly : Chars := ("\\\"card-view-" ++ "\x7b").data

/-- A store where id `A` has a marker and id `B` does not. -/
def storeAB : String → Option String :=
  fun k => if k = "seen:A" then some "marker" else none

/-- A record with id `A`. -/
def compA : Competition :=
  { id := "A", title := "T", description := "", prize := "", timeLeft := "", source := "",
    participants := JSNum.val ⟨0, 0⟩, tags := [] }

/-- A record with id `B`. -/
def compB : Competition :=
  { id := "B", title := "T", description := "", prize := "", timeLeft := "", source := "",
    participants := JSNum.val ⟨0, 0⟩, tags := [] }

/-- A decoded payload whose candidate has no `participants` field. -/
def candParticipantsAbsent : JsonValue :=
  JsonValue.obj [("competition".data,
    JsonValue.obj [("id".data, JsonValue.str "a".data), ("title".data, JsonValue.str "T".data)])]

/-- A decoded payload whose candidate has `participants: "42"`. -/
def candParticipantsNumStr : JsonValue :=
  JsonValue.obj [("competition".data,
    JsonValue.obj [("id".data, JsonValue.str "a".data), ("title".data, JsonValue.str "T".data),
      ("participants".data, JsonValue.str "42".data)])]

/-- A decoded payload whose candidate has the non-numeric
`participants: "abc"`. -/
def candParticipantsBad : JsonValue :=
  JsonValue.obj [("competition".data,
    JsonValue.obj [("id".data, JsonValue.str "a".data), ("title".data, JsonValue.str "T".data),
      ("participants".data, JsonValue.str "abc".data)])]

/-- The raw block `[Ŝ"a\"]` (`Ŝ` is U+015C, whose low byte is the
backslash).  Its first parse fails, the code's fallback also fails, but
the fallback as worded by the spec succeeds. -/
def rawBlockCx : Chars := "[Ŝ\"a\\\"]".data

/-! ## Dedup-gate lemmas and claims -/

theorem freshOf_map (f : Competition → Option String) :
    ∀ cs : List Competition, freshOf cs (cs.map f) = cs.filter (fun c => (f c).isNone) := by
  intro cs
  induction cs with
  | nil => rfl
  | cons c cs ih =>
    cases h : f c with
    | none => simp [freshOf, h, ih]
    | some v => simp [freshOf, h, ih]

theorem freshOf_sublist : ∀ (cs : List Competition) (vs : List (Option String)),
    (freshOf cs vs).Sublist cs := by
  intro cs
  induction cs with
  | nil => intro vs; cases vs <;> simp [freshOf]
  | cons c cs ih =>
    intro vs
    cases vs with
    | nil => simp [freshOf]
    | cons v vs =>
      by_cases h : v = none
      · simpa [freshOf, h] using (ih vs).cons₂ c
      · simpa [freshOf, h] using (ih vs).cons c

/-- C7: with the store available, the gate returns exactly the records
whose id has no `seen:` marker — stated in general as a `filter` over
the lookup results, and instantiated on a store where id `A` carries a
marker and id `B` does not, where filtering `[A, B]` yields `[B]`. -/
theorem dedup_gate_filters_seen :
    (∀ (store : String → Option String) (comps : List Competition),
      filterNewCompetitions (some store) comps
        = comps.filter (fun c => (store ("seen:" ++ c.id)).isNone)) ∧
    filterNewCompetitions (some storeAB) [compA, compB] = [compB] := by
  refine ⟨fun store comps => ?_, rfl⟩
  simpa [filterNewCompetitions] using freshOf_map (fun c => store ("seen:" ++ c.id)) comps

/-- C8: with the key-value binding missing, the gate returns its input
unchanged (fail-open) instead of failing the run. -/
theorem dedup_gate_fail_open :
    ∀ comps : List Competition, filterNewCompetitions none comps = comps :=
  fun _ => rfl

/-- C10: the gate's output is a sublist of its input — same relative
order, and no record occurs more often in the output than in the
input. -/
theorem dedup_gate_subsequence :
    ∀ (kv : Option (String → Option String)) (comps : List Competition),
      (filterNewCompetitions kv comps).Sublist comps ∧
      ∀ c : Competition,
        (filterNewCompetitions kv comps).count c ≤ comps.count c := by
  intro kv comps
  have hsub : (filterNewCompetitions kv comps).Sublist comps := by
    cases kv with
    | none => exact List.Sublist.refl comps
    | some store => exact freshOf_sublist comps _
  exact ⟨hsub, fun c => hsub.count_le c⟩

/-! ## Participants coercion (C3) -/

/-- C3 counterexample: the claim says a non-numeric `participants`
normalizes to `0`, but `Number("abc")` is NaN, and the candidate is
constructed with NaN participants. -/
theorem participants_nonnumeric_counterexample :
    (normalizeCandidate candParticipantsBad).map Competition.participants = some JSNum.nan ∧
    JSNum.nan ≠ JSNum.val ⟨0, 0⟩ :=
  ⟨rfl, by decide⟩

/-- C3 amended: an absent `participants` yields 0, the numeric string
`"42"` yields 42, and a non-numeric value such as `"abc"` yields NaN
(not 0). -/
theorem participants_coercion :
    (normalizeCandidate candParticipantsAbsent).map Competition.participants
      = some (JSNum.val ⟨0, 0⟩) ∧
    (normalizeCandidate candParticipantsNumStr).map Competition.participants
      = some (JSNum.val ⟨42, 0⟩) ∧
    (normalizeCandidate candParticipantsBad).map Competition.participants
      = some JSNum.nan :=
  ⟨rfl, rfl, rfl⟩

/-! ## Tolerant-decoder fallback (C5) -/

/-- C5 counterexample: on the block `[Ŝ"a\"]` the code's fallback fails
(`none`) while the spec's described fallback — bytes of the *sanitized*
string, UTF-8 decode, *then* quote-unescape — succeeds, so the code does
not implement the claimed order. -/
theorem fallback_order_counterexample :
    parseCompetitionJson rawBlockCx = none ∧
    parseCompetitionJsonSpec rawBlockCx = some (JsonValue.arr [JsonValue.str ['a']]) ∧
    parseCompetitionJson rawBlockCx ≠ parseCompetitionJsonSpec rawBlockCx :=
  ⟨rfl, rfl, fun h => Option.noConfusion h⟩

/-- C5 amended: when the first parse fails, the fallback reinterprets
the *normalized* string (sanitized and already quote-unescaped) as
bytes, re-decodes them as UTF-8 non-fatally, and parses once more
*without* reapplying the quote-unescape step. -/
theorem fallback_uses_normalized_string :
    ∀ raw : Chars, parseCompetitionJson raw = parseCompetitionJsonAmended raw :=
  fun _ => rfl

/-! ## Scan-loop lemmas (C4, C9) -/

theorem indexOfFromAux_bounds (pat : Chars) :
    ∀ (l : Chars) (i j : Nat), indexOfFromAux pat i l = some j →
      i ≤ j ∧ pat.isPrefixOf (l.drop (j - i)) ∧ (pat ≠ [] → j - i < l.length) := by
  intro l
  induction l with
  | nil =>
    intro i j h
    rw [indexOfFromAux] at h
    by_cases hp : pat.isPrefixOf ([] : Chars)
    · simp only [hp, if_pos] at h
      cases h
      refine ⟨Nat.le_refl _, by simpa using hp, fun hne => ?_⟩
      cases pat with
      | nil => exact absurd rfl hne
      | cons p ps => simp [List.isPrefixOf] at hp
    · simp [hp] at h
  | cons c rest ih =>
    intro i j h
    rw [indexOfFromAux] at h
    by_cases hp : pat.isPrefixOf (c :: rest)
    · simp only [hp, if_pos] at h
      cases h
      exact ⟨Nat.le_refl _, by simpa using hp, fun _ => by simp⟩
    · simp only [hp, if_neg, not_false_iff] at h
      obtain ⟨hij, hpre, hlen⟩ := ih (i + 1) j h
      refine ⟨Nat.le_of_succ_le hij, ?_, fun hne => ?_⟩
      · have hdrop : (c :: rest).drop (j - i) = rest.drop (j - (i + 1)) := by
          have : j - i = (j - (i + 1)) + 1 := by omega
          simp [this]
        rwa [hdrop]
      · have := hlen hne
        simp only [List.length_cons]
        omega

theorem indexOfFrom_bounds (s pat : Chars) (start j : Nat)
    (h : indexOfFrom s pat start = some j) :
    start ≤ j ∧ pat.isPrefixOf (s.drop j) ∧ (pat ≠ [] → j < s.length) := by
  obtain ⟨hij, hpre, hlen⟩ := indexOfFromAux_bounds pat (s.drop start) start j h
  have hdd : (s.drop start).drop (j - start) = s.drop j := by
    rw [List.drop_drop]
    congr 1
    omega
  refine ⟨hij, by rwa [hdd] at hpre, fun hne => ?_⟩
  have := hlen hne
  simp only [List.length_drop] at this
  omega

theorem indexOfFrom_none_of_big (s pat : Chars) (start : Nat)
    (hpat : pat ≠ []) (h : s.length < start) : indexOfFrom s pat start = none := by
  have hdrop : s.drop start = [] := List.drop_eq_nil_of_le (Nat.le_of_lt h)
  rw [indexOfFrom, hdrop, indexOfFromAux]
  cases pat with
  | nil => exact absurd rfl hpat
  | cons p ps => simp [List.isPrefixOf]

theorem extractJsonBlockGo_bounds :
    ∀ (l : Chars) (prev : Option Char) (depth : Int) (inString : Bool) (consumed n : Nat),
      extractJsonBlockGo prev depth inString consumed l = some n →
      consumed < n ∧ n ≤ consumed + l.length := by
  intro l
  induction l with
  | nil => intro prev depth inString consumed n h; simp [extractJsonBlockGo] at h
  | cons c rest ih =>
    intro prev depth inString consumed n h
    rw [extractJsonBlockGo] at h
    simp only [List.length_cons]
    split at h <;>
    [skip; skip] <;>
    · split at h
      · obtain ⟨h1, h2⟩ := ih _ _ _ _ _ h
        omega
      · split at h
        · split at h
          · cases h; omega
          · obtain ⟨h1, h2⟩ := ih _ _ _ _ _ h
            omega
        · obtain ⟨h1, h2⟩ := ih _ _ _ _ _ h
          omega

theorem extractJsonBlock_bounds (s : Chars) (j : Nat) (raw : Chars)
    (h : extractJsonBlock s j = some raw) :
    raw ≠ [] ∧ 1 ≤ raw.length ∧ j + raw.length ≤ s.length := by
  simp only [extractJsonBlock, Option.map_eq_some'] at h
  obtain ⟨n, hn, hraw⟩ := h
  obtain ⟨h1, h2⟩ := extractJsonBlockGo_bounds _ _ _ _ _ _ hn
  simp only [List.length_drop] at h2
  have hlen : raw.length = n := by
    rw [← hraw, List.length_take, List.length_drop]
    omega
  refine ⟨?_, by omega, by omega⟩
  intro hnil
  rw [hnil] at hlen
  simp at hlen
  omega

/-- C4: when the balanced-brace scan finds no block for a marker
occurrence, only that occurrence is skipped — the loop continues with
the cursor at `objectStart + 1` — and later occurrences are still
extracted: on `chunkOneBad`, whose first occurrence opens an unclosed
brace, extraction still yields the record behind the second
occurrence. -/
theorem failed_block_skips_occurrence :
    (∀ (chunk : Chars) (fuel s : Nat) (acc : List Competition) (markerIndex objectStart : Nat),
      indexOfFrom chunk markerChars s = some markerIndex →
      indexOfFrom chunk lbraceStr markerIndex = some objectStart →
      extractJsonBlock chunk objectStart = none →
      extractLoop chunk (fuel + 1) s acc = extractLoop chunk fuel (objectStart + 1) acc) ∧
    extractFromChunk chunkOneBad = [compT] := by
  constructor
  · intro chunk fuel s acc markerIndex objectStart h1 h2 h3
    simp only [extractLoop, h1, h2, h3]
  · rfl

/-- C9 witness: the fuel-stability part of `marker_scan_terminates`
instantiated on the marker-plus-unclosed-brace chunk. -/
theorem scan_termination_aux :
    ∀ (chunk : Chars) (f1 : Nat), ∀ (f2 s : Nat) (acc : List Competition),
      chunk.length < f1 + s → chunk.length < f2 + s →
      extractLoop chunk f1 s acc = extractLoop chunk f2 s acc := by
  intro chunk f1
  induction f1 with
  | zero =>
    intro f2 s acc hb1 hb2
    have hm : indexOfFrom chunk markerChars s = none :=
      indexOfFrom_none_of_big chunk markerChars s (by decide) (by omega)
    cases f2 with
    | zero => rfl
    | succ g => simp only [extractLoop, hm]
  | succ g ih =>
    intro f2 s acc hb1 hb2
    cases f2 with
    | zero =>
      have hm : indexOfFrom chunk markerChars s = none :=
        indexOfFrom_none_of_big chunk markerChars s (by decide) (by omega)
      simp only [extractLoop, hm]
    | succ h2 =>
      cases hm : indexOfFrom chunk markerChars s with
      | none => simp only [extractLoop, hm]
      | some m =>
        obtain ⟨hsm, -, -⟩ := indexOfFrom_bounds chunk markerChars s m hm
        cases ho : indexOfFrom chunk lbraceStr m with
        | none => simp only [extractLoop, hm, ho]
        | some o =>
          obtain ⟨hmo, -, -⟩ := indexOfFrom_bounds chunk lbraceStr m o ho
          cases hb : extractJsonBlock chunk o with
          | none =>
            simp only [extractLoop, hm, ho, hb]
            exact ih h2 (o + 1) acc (by omega) (by omega)
          | some raw =>
            obtain ⟨-, hr1, hr2⟩ := extractJsonBlock_bounds chunk o raw hb
            cases hp : parseCompetitionJson raw with
            | none =>
              simp only [extractLoop, hm, ho, hb, hp]
              exact ih h2 (o + raw.length) acc (by omega) (by omega)
            | some json =>
              cases hn : normalizeCandidate json with
              | none =>
                simp only [extractLoop, hm, ho, hb, hp, hn]
                exact ih h2 (o + raw.length) acc (by omega) (by omega)
              | some comp =>
                simp only [extractLoop, hm, ho, hb, hp, hn]
                exact ih h2 (o + raw.length) (acc ++ [comp]) (by omega) (by omega)

/-- C9: the marker-scanning loop terminates.  Fuel beyond
`chunk.length - searchIndex` is irrelevant (the loop has converged), and
in every continuing iteration the cursor strictly increases — to
`objectStart + 1` on a failed block, to `objectStart + raw.length` with
`raw` non-empty on a successful one — while staying bounded by the chunk
length. -/
theorem marker_scan_terminates :
    (∀ (chunk : Chars) (f1 f2 s : Nat) (acc : List Competition),
      chunk.length < f1 + s → chunk.length < f2 + s →
      extractLoop chunk f1 s acc = extractLoop chunk f2 s acc) ∧
    (∀ (chunk : Chars) (s m o : Nat),
      indexOfFrom chunk markerChars s = some m →
      indexOfFrom chunk lbraceStr m = some o →
      (s < o + 1 ∧ o + 1 ≤ chunk.length) ∧
      (∀ raw : Chars, extractJsonBlock chunk o = some raw →
        raw ≠ [] ∧ s < o + raw.length ∧ o + raw.length ≤ chunk.length)) := by
  constructor
  · exact scan_termination_aux
  · intro chunk s m o hm ho
    obtain ⟨hsm, -, -⟩ := indexOfFrom_bounds chunk markerChars s m hm
    obtain ⟨hmo, -, holen⟩ := indexOfFrom_bounds chunk lbraceStr m o ho
    have ho2 : o < chunk.length := holen (by decide)
    refine ⟨⟨by omega, by omega⟩, fun raw hb => ?_⟩
    obtain ⟨hne, hr1, hr2⟩ := extractJsonBlock_bounds chunk o raw hb
    exact ⟨hne, by omega, hr2⟩

/-- C4 witness: the skip step applied on the concrete chunk that is a
marker followed by an unclosed brace (object start at index 12). -/
theorem failed_block_skips_occurrence_witness :
    extractLoop chunkMarkerOnly 2 0 [] = extractLoop chunkMarkerOnly 1 13 [] :=
  failed_block_skips_occurrence.1 chunkMarkerOnly 1 0 [] 0 12 (by decide) (by decide) (by decide)

/-- C9 witness: fuel stability on the same concrete chunk. -/
theorem marker_scan_terminates_witness :
    extractLoop chunkMarkerOnly 14 0 [] = extractLoop chunkMarkerOnly 20 0 [] :=
  marker_scan_terminates.1 chunkMarkerOnly 14 20 0 [] (by decide) (by decide)

/-- C6: a Competition is constructed from a decoded payload only when
the payload has a truthy `competition` object whose `id` and `title`
fields are present and truthy — which for string values means non-empty;
otherwise the candidate is dropped.  On the chunk with one valid and one
invalid candidate, extraction yields exactly one record. -/
theorem competition_requires_id_title :
    (∀ (json : JsonValue) (c : Competition), normalizeCandidate json = some c →
      ∃ comp idv titlev,
        getField json "competition".data = some comp ∧ truthy comp = true ∧
        getField comp "id".data = some idv ∧ truthy idv = true ∧
        (∀ s : Chars, idv = JsonValue.str s → s ≠ []) ∧
        getField comp "title".data = some titlev ∧ truthy titlev = true ∧
        (∀ s : Chars, titlev = JsonValue.str s → s ≠ [])) ∧
    (extractFromChunk chunkValidInvalid).length = 1 := by
  refine ⟨?_, rfl⟩
  intro json c h
  simp only [normalizeCandidate] at h
  split at h
  next hcomp => simp at h
  next comp hcomp =>
    split at h
    next htr =>
      split at h
      next hid => simp at h
      next idv hid =>
        split at h
        next hidt =>
          split at h
          next htt => simp at h
          next titlev htt =>
            split at h
            next httt =>
              refine ⟨comp, idv, titlev, hcomp, htr, hid, hidt, ?_, htt, httt, ?_⟩
              · intro s hs hnil
                subst hs
                subst hnil
                simp [truthy] at hidt
              · intro s hs hnil
                subst hs
                subst hnil
                simp [truthy] at httt
            next httt => simp at h
        next hidt => simp at h
    next htr => simp at h

/-- C6 witness: the construction conditions read off a concrete
payload whose candidate yields a record. -/
theorem competition_requires_id_title_witness :
    ∃ comp idv titlev,
      getField candParticipantsAbsent "competition".data = some comp ∧ truthy comp = true ∧
      getField comp "id".data = some idv ∧ truthy idv = true ∧
      (∀ s : Chars, idv = JsonValue.str s → s ≠ []) ∧
      getField comp "title".data = some titlev ∧ truthy titlev = true ∧
      (∀ s : Chars, titlev = JsonValue.str s → s ≠ []) :=
  competition_requires_id_title.1 candParticipantsAbsent compT (by rfl)

/-! ## Batching lemmas (C1, C2) -/

theorem foldl_add_eq (l : List Nat) : ∀ a : Nat, l.foldl (· + ·) a = a + l.sum := by
  induction l with
  | nil => intro a; simp
  | cons x t ih => intro a; simp only [List.foldl_cons, ih, List.sum_cons]; omega

theorem joinSep_length (sep : String) (x : String) (xs : List String) :
    (joinSep sep (x :: xs)).length
      = x.length + (xs.map String.length).sum + sep.length * xs.length := by
  induction xs generalizing x with
  | nil => simp [joinSep]
  | cons y t ih =>
    simp only [joinSep, String.length_append, ih y, List.map_cons, List.sum_cons,
      List.length_cons]
    ring

theorem wouldBeLen_eq (n i : Nat) (batch : List String) (fmt : String) :
    wouldBeLen n i batch fmt
      = (buildHeader n (some (i - batch.length + 1, i + 1))).length +
        (joinSep "\n\n" (batch ++ [fmt])).length := by
  cases batch with
  | nil => simp [wouldBeLen, joinSep]
  | cons b t =>
    rw [wouldBeLen, foldl_add_eq]
    have hj := joinSep_length "\n\n" b (t ++ [fmt])
    simp only [List.cons_append, hj, List.map_append, List.sum_append, List.length_append,
      List.map_cons, List.sum_cons, List.map_nil, List.sum_nil, List.length_cons,
      List.length_nil]
    have h2 : ("\n\n" : String).length = 2 := rfl
    rw [h2]
    simp only [List.length_cons, Nat.zero_add]
    split
    · omega
    · omega

theorem rangeHeaderize_append (n : Nat) (xs : List (List String)) :
    ∀ (ys : List (List String)) (p : Nat),
      rangeHeaderize n p (xs ++ ys)
        = rangeHeaderize n p xs ++ rangeHeaderize n (p + (xs.map List.length).sum) ys := by
  induction xs with
  | nil => intro ys p; simp [rangeHeaderize]
  | cons b t ih =>
    intro ys p
    have hstep : rangeHeaderize n p ((b :: t) ++ ys)
        = (buildHeader n (some (p, p + b.length - 1)) ++ joinSep "\n\n" b) ::
          rangeHeaderize n (p + b.length) (t ++ ys) := rfl
    have hstep2 : rangeHeaderize n p (b :: t)
        = (buildHeader n (some (p, p + b.length - 1)) ++ joinSep "\n\n" b) ::
          rangeHeaderize n (p + b.length) t := rfl
    rw [hstep, hstep2, List.cons_append, ih, List.map_cons, List.sum_cons, ← Nat.add_assoc]

theorem rangeHeaderize_length (n : Nat) (bs : List (List String)) :
    ∀ p : Nat, (rangeHeaderize n p bs).length = bs.length := by
  induction bs with
  | nil => intro p; rfl
  | cons b t ih => intro p; simp [rangeHeaderize, ih]

theorem specMessages_of_ne_one (n : Nat) (bs : List (List String)) (h : bs.length ≠ 1) :
    specMessages n bs = rangeHeaderize n 1 bs := by
  match bs with
  | [] => rfl
  | [b] => simp at h
  | a :: b :: t => rfl

theorem buildGo_partition (n : Nat) (baseUrl : String) (comps : List Competition)
    (hn : comps.length = n) :
    ∀ (rest : List Competition) (i : Nat) (batch : List String) (curLen : Nat)
      (past : List (List String)),
      comps.drop i = rest →
      i + rest.length = n →
      past.flatten ++ batch = (comps.take i).map (fun c => formatCompetition c baseUrl) →
      (∀ b ∈ past, b ≠ []) →
      batch.length ≤ i →
      (batch = [] → past = []) →
      ∃ newBatches : List (List String),
        (∀ b ∈ newBatches, b ≠ []) ∧
        newBatches.flatten = batch ++ rest.map (fun c => formatCompetition c baseUrl) ∧
        buildGo n baseUrl rest i batch curLen (rangeHeaderize n 1 past)
          = specMessages n (past ++ newBatches) := by
  intro rest
  induction rest with
  | nil =>
    intro i batch curLen past hdrop hlen hjoin hpne hbl hempty
    have hi : i = n := by simpa using hlen
    by_cases hb : batch = []
    · have hp : past = [] := hempty hb
      subst hb; subst hp
      exact ⟨[], by simp, by simp, by simp [buildGo, rangeHeaderize, specMessages]⟩
    · have hbl1 : 0 < batch.length := List.length_pos.mpr hb
      have hS : (past.map List.length).sum + batch.length = i := by
        have hlen2 := congrArg List.length hjoin
        simp only [List.length_append, List.length_flatten, List.length_map,
          List.length_take] at hlen2
        omega
      refine ⟨[batch], by simp [hb], by simp, ?_⟩
      simp only [buildGo]
      rw [if_pos hbl1]
      cases past with
      | nil =>
        simp [rangeHeaderize, specMessages]
      | cons p ps =>
        rw [if_neg (by simp [rangeHeaderize_length])]
        rw [specMessages_of_ne_one n ((p :: ps) ++ [batch]) (by simp)]
        rw [rangeHeaderize_append]
        simp only [rangeHeaderize, List.append_nil]
        have e1 : 1 + ((p :: ps).map List.length).sum = n - batch.length + 1 := by omega
        have e2 : n - batch.length + 1 + batch.length - 1 = n := by omega
        rw [e1, e2]
  | cons c rest' ih =>
    intro i batch curLen past hdrop hlen hjoin hpne hbl hempty
    simp only [List.length_cons] at hlen
    have hlt : i < n := by omega
    have hic : i < comps.length := by omega
    have hgetc : comps[i]? = some c := by
      have hh := List.head?_drop comps i
      rw [hdrop] at hh
      simpa using hh.symm
    have htake : comps.take (i + 1) = comps.take i ++ [c] := by
      rw [List.take_succ, hgetc]
      rfl
    have hdrop2 : comps.drop (i + 1) = rest' := by
      have h2 : (comps.drop i).drop 1 = comps.drop (i + 1) := by
        rw [List.drop_drop]
      rw [← h2, hdrop]
      rfl
    have hS : (past.map List.length).sum + batch.length = i := by
      have hlen2 := congrArg List.length hjoin
      simp only [List.length_append, List.length_flatten, List.length_map,
        List.length_take] at hlen2
      omega
    have hjoin2 : past.flatten ++ (batch ++ [formatCompetition c baseUrl])
        = (comps.take (i + 1)).map (fun x => formatCompetition x baseUrl) := by
      rw [htake, List.map_append, ← List.append_assoc, hjoin]
      simp
    simp only [buildGo]
    by_cases hcond : wouldBeLen n i batch (formatCompetition c baseUrl) > TELEGRAM_MAX_LENGTH ∧
        batch.length > 0
    · rw [if_pos hcond]
      rw [if_neg (show ¬(n = batch.length) by omega)]
      obtain ⟨nb, nbne, nbjoin, hres⟩ :=
        ih (i + 1) [formatCompetition c baseUrl] (formatCompetition c baseUrl).length
          (past ++ [batch]) hdrop2 (by omega)
          (by rw [List.flatten_append, htake, List.map_append]
              simp only [List.flatten_cons, List.flatten_nil, List.append_nil]
              rw [List.append_assoc, ← hjoin]
              simp)
          (by intro b hb
              rcases List.mem_append.mp hb with h1 | h2
              · exact hpne b h1
              · simp only [List.mem_singleton] at h2
                subst h2
                exact List.length_pos.mp hcond.2)
          (by simp)
          (by intro habs; simp at habs)
      have hmsg : rangeHeaderize n 1 (past ++ [batch])
          = rangeHeaderize n 1 past ++
            [buildHeader n (some (i - batch.length + 1, i)) ++ joinSep "\n\n" batch] := by
        rw [rangeHeaderize_append]
        simp only [rangeHeaderize, List.append_nil]
        have e1 : 1 + (past.map List.length).sum = i - batch.length + 1 := by omega
        have e2 : i - batch.length + 1 + batch.length - 1 = i := by
          have := hcond.2
          omega
        rw [e1, e2]
      rw [← hmsg, hres]
      refine ⟨batch :: nb, ?_, ?_, ?_⟩
      · intro b hb
        rcases List.mem_cons.mp hb with h1 | h2
        · subst h1; exact List.length_pos.mp hcond.2
        · exact nbne b h2
      · simp only [List.flatten_cons, nbjoin, List.map_cons]
        simp
      · congr 1
        simp
    · rw [if_neg hcond]
      obtain ⟨nb, nbne, nbjoin, hres⟩ :=
        ih (i + 1) (batch ++ [formatCompetition c baseUrl])
          (wouldBeLen n i batch (formatCompetition c baseUrl)) past hdrop2 (by omega)
          hjoin2 hpne (by simp; omega) (by intro habs; simp at habs)
      refine ⟨nb, nbne, ?_, hres⟩
      rw [nbjoin, List.map_cons]
      simp

/-- C1: for every non-empty record list, the emitted messages partition
the rendered blocks — concatenating the de-headered blocks across all
messages in order reproduces the formatted blocks of the input list in
order, each block in exactly one message.  Every header is built with
total `comps.length`, and by the shape of `specMessages` and
`rangeHeaderize` a sole batch carries the whole-total header while
otherwise each batch's range header carries the 1-based positions of
its first and last record within the full list. -/
theorem buildTelegramMessages_covers (comps : List Competition) (baseUrl : String)
    (h : comps ≠ []) :
    ∃ batches : List (List String),
      batches ≠ [] ∧ (∀ b ∈ batches, b ≠ []) ∧
      batches.flatten = comps.map (fun c => formatCompetition c baseUrl) ∧
      buildTelegramMessages comps baseUrl = specMessages comps.length batches := by
  obtain ⟨nb, nbne, nbjoin, hres⟩ :=
    buildGo_partition comps.length baseUrl comps rfl comps 0 [] 0 []
      rfl (by simp) (by simp) (by simp) (by simp) (fun _ => rfl)
  refine ⟨nb, ?_, nbne, by simpa using nbjoin, ?_⟩
  · intro hnil
    rw [hnil] at nbjoin
    simp only [List.flatten_nil, List.nil_append] at nbjoin
    exact h (List.map_eq_nil_iff.mp nbjoin.symm)
  · simpa [buildTelegramMessages, rangeHeaderize] using hres

/-- C1 witness: the partition applied to a concrete singleton list. -/
theorem buildTelegramMessages_covers_witness :
    ([compT] : List Competition) ≠ [] ∧
    ∃ batches : List (List String),
      batches ≠ [] ∧ (∀ b ∈ batches, b ≠ []) ∧
      batches.flatten = [compT].map (fun c => formatCompetition c "") ∧
      buildTelegramMessages [compT] "" = specMessages ([compT] : List Competition).length batches :=
  ⟨by simp, buildTelegramMessages_covers [compT] "" (by simp)⟩

/-! ## Message-length bound (C2) -/

theorem buildHeader_none_le (n s e : Nat) :
    (buildHeader n none).length ≤ (buildHeader n (some (s, e))).length := by
  simp only [buildHeader, String.length_append]
  have h1 : ("发现 " : String).length = 3 := rfl
  have h2 : (" 个新竞赛：\n\n" : String).length = 8 := rfl
  have h3 : (" 个新竞赛（" : String).length = 6 := rfl
  have h4 : ("\\-" : String).length = 2 := rfl
  have h5 : ("/" : String).length = 1 := rfl
  have h6 : ("）：\n\n" : String).length = 4 := rfl
  rw [h1, h2, h3, h4, h5, h6]
  omega

theorem escapeMarkdown_length_ge (s : String) : s.length ≤ (escapeMarkdown s).length := by
  show s.data.length ≤ ((s.data.map
    (fun c => if isMdReserved c then ['\\', c] else [c])).flatten).length
  induction s.data with
  | nil => simp
  | cons c t ih =>
    simp only [List.map_cons, List.flatten_cons, List.length_append, List.length_cons]
    have hc : 1 ≤ (if isMdReserved c then ['\\', c] else [c]).length := by
      split <;> simp
    omega

theorem buildGo_length (n : Nat) (baseUrl : String) (comps : List Competition)
    (H : ∀ c ∈ comps, ∀ s e : Nat, s ≤ n → e ≤ n →
      (buildHeader n (some (s, e))).length + (formatCompetition c baseUrl).length
        ≤ TELEGRAM_MAX_LENGTH) :
    ∀ (rest : List Competition) (i : Nat) (batch : List String) (curLen : Nat)
      (messages : List String),
      comps.drop i = rest →
      i + rest.length = n →
      batch.length ≤ i →
      (∀ m ∈ messages, m.length ≤ TELEGRAM_MAX_LENGTH) →
      (batch ≠ [] →
        (buildHeader n (some (i - batch.length + 1, i))).length +
          (joinSep "\n\n" batch).length ≤ TELEGRAM_MAX_LENGTH) →
      ∀ m ∈ buildGo n baseUrl rest i batch curLen messages,
        m.length ≤ TELEGRAM_MAX_LENGTH := by
  intro rest
  induction rest with
  | nil =>
    intro i batch curLen messages hdrop hlen hbl hmsgs hinv
    have hi : i = n := by simpa using hlen
    simp only [buildGo]
    by_cases hb : batch.length > 0
    · rw [if_pos hb]
      intro m hm
      rcases List.mem_append.mp hm with h1 | h2
      · exact hmsgs m h1
      · simp only [List.mem_singleton] at h2
        subst h2
        have hbne : batch ≠ [] := by
          intro habs; rw [habs] at hb; simp at hb
        have hinv2 := hinv hbne
        rw [hi] at hinv2
        rw [String.length_append]
        by_cases hm0 : messages.length = 0
        · rw [if_pos hm0]
          have := buildHeader_none_le n (n - batch.length + 1) n
          omega
        · rw [if_neg hm0]
          omega
    · rw [if_neg hb]
      exact hmsgs
  | cons c rest' ih =>
    intro i batch curLen messages hdrop hlen hbl hmsgs hinv
    simp only [List.length_cons] at hlen
    have hlt : i < n := by omega
    have hcm : c ∈ comps := by
      have hcd : c ∈ comps.drop i := by
        rw [hdrop]; exact List.mem_cons_self c rest'
      exact List.drop_subset i comps hcd
    have hdrop2 : comps.drop (i + 1) = rest' := by
      have h2 : (comps.drop i).drop 1 = comps.drop (i + 1) := by rw [List.drop_drop]
      rw [← h2, hdrop]
      rfl
    simp only [buildGo]
    by_cases hcond : wouldBeLen n i batch (formatCompetition c baseUrl) > TELEGRAM_MAX_LENGTH ∧
        batch.length > 0
    · rw [if_pos hcond]
      rw [if_neg (show ¬(n = batch.length) by omega)]
      refine ih (i + 1) [formatCompetition c baseUrl] (formatCompetition c baseUrl).length
        (messages ++ [buildHeader n (some (i - batch.length + 1, i)) ++ joinSep "\n\n" batch])
        hdrop2 (by omega) (by simp) ?_ ?_
      · intro m hm
        rcases List.mem_append.mp hm with h1 | h2
        · exact hmsgs m h1
        · simp only [List.mem_singleton] at h2
          subst h2
          rw [String.length_append]
          have hbne : batch ≠ [] := by
            intro habs; rw [habs] at hcond; simp at hcond
          exact hinv hbne
      · intro _
        have e1 : i + 1 - ([formatCompetition c baseUrl] : List String).length + 1 = i + 1 := by
          simp
        rw [e1]
        have hjs : joinSep "\n\n" [formatCompetition c baseUrl]
            = formatCompetition c baseUrl := rfl
        rw [hjs]
        exact H c hcm (i + 1) (i + 1) (by omega) (by omega)
    · rw [if_neg hcond]
      refine ih (i + 1) (batch ++ [formatCompetition c baseUrl])
        (wouldBeLen n i batch (formatCompetition c baseUrl)) messages hdrop2 (by omega)
        (by simp; omega) hmsgs ?_
      intro _
      have e1 : i + 1 - (batch ++ [formatCompetition c baseUrl]).length + 1
          = i - batch.length + 1 := by
        simp only [List.length_append, List.length_cons, List.length_nil]
        omega
      rw [e1]
      rcases Decidable.not_and_iff_or_not.mp hcond with h1 | h2
      · have := wouldBeLen_eq n i batch (formatCompetition c baseUrl)
        omega
      · have hb0 : batch = [] := by
          rcases batch with _ | ⟨x, t⟩
          · rfl
          · simp at h2
        subst hb0
        have hjs : joinSep "\n\n" ([] ++ [formatCompetition c baseUrl])
            = formatCompetition c baseUrl := rfl
        rw [hjs]
        have e2 : i - ([] : List String).length + 1 = i + 1 := by simp
        rw [e2]
        exact H c hcm (i + 1) (i + 1) (by omega) (by omega)

/-- C2 amended: every emitted message fits in the 4096-character budget
provided every record's rendered block fits alongside any range header
for in-range positions; without that proviso a single oversized block is
emitted as one oversized message (see the counterexample). -/
theorem buildTelegramMessages_length_bounded (comps : List Competition) (baseUrl : String)
    (H : ∀ c ∈ comps, ∀ s e : Nat, s ≤ comps.length → e ≤ comps.length →
      (buildHeader comps.length (some (s, e))).length +
        (formatCompetition c baseUrl).length ≤ TELEGRAM_MAX_LENGTH) :
    ∀ m ∈ buildTelegramMessages comps baseUrl, m.length ≤ TELEGRAM_MAX_LENGTH :=
  buildGo_length comps.length baseUrl comps H comps 0 [] 0 []
    rfl (by simp) (by simp) (by simp) (fun habs => absurd rfl habs)

/-- C2 amended witness: the bound applied to the one message produced
for a concrete singleton whose block is small. -/
theorem buildTelegramMessages_length_bounded_witness :
    (buildHeader 1 none ++ formatCompetition compT "").length ≤ TELEGRAM_MAX_LENGTH :=
  buildTelegramMessages_length_bounded [compT] "" (by
      intro c hc s e hs he
      simp only [List.mem_singleton] at hc
      subst hc
      have hs1 : s ≤ 1 := by simpa using hs
      have he1 : e ≤ 1 := by simpa using he
      interval_cases s <;> interval_cases e <;> decide)
    (buildHeader 1 none ++ formatCompetition compT "")
    (by rw [show buildTelegramMessages [compT] ""
          = [buildHeader 1 none ++ formatCompetition compT ""] from rfl]
        exact List.mem_singleton_self _)


/-- C2 counterexample: on a record whose title alone spans 4200
characters, the single emitted message (header plus block) exceeds the
4096-character maximum — the loop only closes a batch when it is
non-empty, so an oversized lone block is sent oversized. -/
theorem oversized_message_counterexample :
    ¬ (∀ m ∈ buildTelegramMessages [oversizedComp] "", m.length ≤ TELEGRAM_MAX_LENGTH) := by
  intro hall
  have hmsg : buildTelegramMessages [oversizedComp] ""
      = [buildHeader 1 none ++ joinSep "\n\n" [formatCompetition oversizedComp ""]] := by
    simp only [buildTelegramMessages, buildGo]
    rw [if_neg (by simp)]
    rw [if_pos (by simp)]
    simp
  have hm := hall (buildHeader 1 none ++ joinSep "\n\n" [formatCompetition oversizedComp ""])
    (by rw [hmsg]; exact List.mem_singleton_self _)
  have hjs : joinSep "\n\n" [formatCompetition oversizedComp ""]
      = formatCompetition oversizedComp "" := rfl
  rw [hjs, String.length_append] at hm
  have htitle : 4200 ≤ (escapeMarkdown oversizedComp.title).length := by
    have h1 : oversizedComp.title.length = 4200 := by
      show (List.replicate 4200 'a').length = 4200
      exact List.length_replicate 4200 'a'
    have h2 := escapeMarkdown_length_ge oversizedComp.title
    omega
  have hfmt : 4200 ≤ (formatCompetition oversizedComp "").length := by
    simp only [formatCompetition]
    rw [joinSep_length]
    have hx : 4200 ≤ ("• [" ++ escapeMarkdown oversizedComp.title ++ "](" ++
        escapeMarkdown ("" ++ oversizedComp.id) ++ ")").length := by
      simp only [String.length_append]
      omega
    omega
  have hmax : TELEGRAM_MAX_LENGTH = 4096 := rfl
  omega
